import Mathlib

set_option linter.unusedVariables false

/-!
Verification of the Amazon price tracker (`main.py`) against its
natural-language specification.  The Python functions are shallowly embedded
as executable Lean functions over `String` / `List Char`; network and
filesystem effects are passed in as explicit oracle arguments.
-/

namespace PriceTracker

/-! ### Generic list infrastructure: splitting at delimiter characters -/

/-- Split a character list at every character satisfying `q`, keeping empty
segments, exactly like Python's `str.split` for a one-character separator
(generalised to a predicate). -/
def splitOnP (q : Char → Bool) : List Char → List (List Char)
  | [] => [[]]
  | a :: t =>
    if q a then [] :: splitOnP q t
    else
      match splitOnP q t with
      | s :: ss => (a :: s) :: ss
      | [] => [[a]]

theorem splitOnP_ne_nil (q : Char → Bool) (l : List Char) : splitOnP q l ≠ [] := by
  induction l with
  | nil => simp [splitOnP]
  | cons a t ih =>
    simp only [splitOnP]
    by_cases h : q a
    · simp [h]
    · simp only [h, if_neg]
      cases hs : splitOnP q t with
      | nil => simp
      | cons s ss => simp

theorem splitOnP_head (q : Char → Bool) (l : List Char) :
    ∃ ss, splitOnP q l = (l.takeWhile fun c => !(q c)) :: ss := by
  induction l with
  | nil => exact ⟨[], rfl⟩
  | cons a t ih =>
    by_cases h : q a
    · exact ⟨splitOnP q t, by simp [splitOnP, h, List.takeWhile_cons]⟩
    · obtain ⟨ss, hss⟩ := ih
      refine ⟨ss, ?_⟩
      simp [splitOnP, h, hss, List.takeWhile_cons]

theorem splitOnP_append_delim (q : Char → Bool) {d : Char} (hd : q d = true)
    (l₁ l₂ : List Char) :
    splitOnP q (l₁ ++ d :: l₂) = splitOnP q l₁ ++ splitOnP q l₂ := by
  induction l₁ with
  | nil => simp [splitOnP, hd]
  | cons a t ih =>
    by_cases h : q a
    · simp [splitOnP, h, ih]
    · simp only [List.cons_append, splitOnP, h, if_neg, Bool.false_eq_true,
        not_false_iff, List.append_eq]
      rw [ih]
      cases hs : splitOnP q t with
      | nil => exact absurd hs (splitOnP_ne_nil q t)
      | cons s ss => simp

theorem splitOnP_no_delim (q : Char → Bool) (l : List Char)
    (h : ∀ c ∈ l, q c = false) : splitOnP q l = [l] := by
  induction l with
  | nil => rfl
  | cons a t ih =>
    have ha : q a = false := h a (by simp)
    have ht : ∀ c ∈ t, q c = false := fun c hc => h c (by simp [hc])
    simp [splitOnP, ha, ih ht]

/-- A run of non-delimiter characters that is preceded by a delimiter and
followed by a delimiter (or the end of the list) is one of the segments
produced by `splitOnP`. -/
theorem mem_splitOnP_of_run (q : Char → Bool) {d₀ : Char} (p c s : List Char)
    (hd₀ : q d₀ = true) (hc : ∀ x ∈ c, q x = false)
    (hs : s = [] ∨ ∃ d s', s = d :: s' ∧ q d = true) :
    c ∈ splitOnP q (p ++ d₀ :: (c ++ s)) := by
  rw [splitOnP_append_delim q hd₀]
  refine List.mem_append_right _ ?_
  rcases hs with rfl | ⟨d, s', rfl, hds⟩
  · rw [List.append_nil, splitOnP_no_delim q c hc]; simp
  · rw [splitOnP_append_delim q hds, splitOnP_no_delim q c hc]; simp

theorem dropWhile_head_not (p : Char → Bool) :
    ∀ (l : List Char) {d : Char} {r : List Char}, l.dropWhile p = d :: r → p d = false := by
  intro l
  induction l with
  | nil => intro d r h; simp [List.dropWhile] at h
  | cons a t ih =>
    intro d r h
    by_cases hp : p a
    · rw [List.dropWhile_cons_of_pos hp] at h; exact ih h
    · rw [List.dropWhile_cons_of_neg hp] at h
      injection h with h1 h2
      subst h1
      simpa [Bool.not_eq_true] using hp

/-- Every segment of `splitOnP` other than the head is preceded by a
delimiter, contains no delimiter, and is followed by a delimiter or the end. -/
theorem splitOnP_tail_decomp (q : Char → Bool) :
    ∀ (l : List Char) (c : List Char), c ∈ (splitOnP q l).tail →
      ∃ p d r, l = p ++ d :: (c ++ r) ∧ q d = true ∧ (∀ x ∈ c, q x = false) ∧
        (r = [] ∨ ∃ d' r', r = d' :: r' ∧ q d' = true) := by
  intro l
  induction l with
  | nil => intro c hc; simp [splitOnP] at hc
  | cons a t ih =>
    intro c hc
    by_cases h : q a
    · simp only [splitOnP, h, if_pos, List.tail_cons] at hc
      -- `c` is a segment of `splitOnP q t`: either its head or in its tail.
      obtain ⟨ss, hss⟩ := splitOnP_head q t
      rw [hss] at hc
      rcases List.mem_cons.mp hc with rfl | hmem
      · -- head segment: `c = takeWhile (!q) t`
        refine ⟨[], a, t.dropWhile fun x => !(q x), ?_, h, ?_, ?_⟩
        · simp [List.takeWhile_append_dropWhile]
        · intro x hx
          have := List.mem_takeWhile_imp hx
          simpa using this
        · cases hdw : t.dropWhile fun x => !(q x) with
          | nil => exact Or.inl rfl
          | cons d' r' =>
            refine Or.inr ⟨d', r', rfl, ?_⟩
            have := dropWhile_head_not (fun x => !(q x)) t hdw
            simpa using this
      · -- in the tail of `splitOnP q t`
        have := ih c (by rw [hss]; simpa using hmem)
        obtain ⟨p, d, r, ht, hdq, hcq, hr⟩ := this
        exact ⟨a :: p, d, r, by simp [ht], hdq, hcq, hr⟩
    · simp only [splitOnP, h, if_neg, Bool.false_eq_true, not_false_iff] at hc
      cases hs : splitOnP q t with
      | nil => exact absurd hs (splitOnP_ne_nil q t)
      | cons s ss =>
        rw [hs] at hc
        simp only [List.tail_cons] at hc
        have := ih c (by rw [hs]; simpa using hc)
        obtain ⟨p, d, r, ht, hdq, hcq, hr⟩ := this
        exact ⟨a :: p, d, r, by simp [ht], hdq, hcq, hr⟩

/-- Every segment produced by `splitOnP` occurs contiguously inside the list. -/
theorem splitOnP_sub (q : Char → Bool) :
    ∀ (l : List Char) (r : List Char), r ∈ splitOnP q l →
      ∃ x y, l = x ++ r ++ y := by
  intro l
  induction l with
  | nil =>
    intro r hr
    simp only [splitOnP, List.mem_singleton] at hr
    exact ⟨[], [], by simp [hr]⟩
  | cons a t ih =>
    intro r hr
    by_cases h : q a
    · simp only [splitOnP, h, if_pos, List.mem_cons] at hr
      rcases hr with rfl | hr
      · exact ⟨[], a :: t, by simp⟩
      · obtain ⟨x, y, hxy⟩ := ih r hr
        exact ⟨a :: x, y, by simp [hxy]⟩
    · simp only [splitOnP, h, if_neg, Bool.false_eq_true, not_false_iff] at hr
      cases hs : splitOnP q t with
      | nil => exact absurd hs (splitOnP_ne_nil q t)
      | cons s ss =>
        rw [hs] at hr
        rcases List.mem_cons.mp hr with rfl | hr
        · -- head segment: `s` is the leading run of `t`
          obtain ⟨ss', hss'⟩ := splitOnP_head q t
          rw [hss'] at hs
          injection hs with hs1 hs2
          refine ⟨[], t.dropWhile fun x => !(q x), ?_⟩
          simp [← hs1, List.takeWhile_append_dropWhile]
        · obtain ⟨x, y, hxy⟩ := ih r (by rw [hs]; exact List.mem_cons_of_mem _ hr)
          exact ⟨a :: x, y, by simp [hxy]⟩

/-! ### Counting substring occurrences -/

/-- Number of (possibly overlapping) occurrences of `pat` in `l`: the number
of positions at which `pat` occurs as a contiguous sublist. -/
def countOccs (pat : List Char) : List Char → Nat
  | [] => if pat = [] then 1 else 0
  | a :: t => (if pat.isPrefixOf (a :: t) then 1 else 0) + countOccs pat t

theorem isPrefixOf_iff_exists (p : List Char) :
    ∀ l : List Char, p.isPrefixOf l = true ↔ ∃ t, l = p ++ t := by
  induction p with
  | nil => intro l; simp [List.isPrefixOf]
  | cons a p' ih =>
    intro l
    cases l with
    | nil =>
      simp only [List.isPrefixOf]
      constructor
      · intro h; exact absurd h (by simp)
      · rintro ⟨t, ht⟩; simp at ht
    | cons b l' =>
      simp only [List.isPrefixOf, Bool.and_eq_true, beq_iff_eq, ih l']
      constructor
      · rintro ⟨rfl, t, rfl⟩; exact ⟨t, rfl⟩
      · rintro ⟨t, ht⟩
        injection ht with h1 h2
        exact ⟨h1.symm, t, h2⟩

theorem countOccs_eq_zero_of_lt (pat : List Char) :
    ∀ l : List Char, l.length < pat.length → countOccs pat l = 0 := by
  intro l
  induction l with
  | nil =>
    intro h
    have : pat ≠ [] := by rintro rfl; simp at h
    simp [countOccs, this]
  | cons a t ih =>
    intro h
    rw [List.length_cons] at h
    have hnp : pat.isPrefixOf (a :: t) = false := by
      rw [Bool.eq_false_iff]
      intro hp
      obtain ⟨u, hu⟩ := (isPrefixOf_iff_exists pat (a :: t)).mp hp
      have hlen : t.length + 1 = pat.length + u.length := by
        simpa using congrArg List.length hu
      omega
    have hlt : t.length < pat.length := by omega
    simp [countOccs, hnp, ih hlt]

theorem countOccs_self (pat : List Char) (h : pat ≠ []) : countOccs pat pat = 1 := by
  cases pat with
  | nil => exact absurd rfl h
  | cons a t =>
    have hp : (a :: t).isPrefixOf (a :: t) = true :=
      (isPrefixOf_iff_exists _ _).mpr ⟨[], by simp⟩
    have : countOccs (a :: t) t = 0 := countOccs_eq_zero_of_lt _ t (by simp)
    simp [countOccs, hp, this]

theorem le_countOccs_append (pat x : List Char) :
    ∀ y : List Char, countOccs pat y ≤ countOccs pat (x ++ y) := by
  intro y
  induction x with
  | nil => simp
  | cons a t ih =>
    calc countOccs pat y ≤ countOccs pat (t ++ y) := ih
      _ ≤ countOccs pat (a :: (t ++ y)) := by
          simp only [countOccs]; omega
      _ = countOccs pat ((a :: t) ++ y) := rfl

theorem one_le_countOccs_self_append (pat y : List Char) :
    1 ≤ countOccs pat (pat ++ y) := by
  have hp : pat.isPrefixOf (pat ++ y) = true := (isPrefixOf_iff_exists _ _).mpr ⟨y, rfl⟩
  cases hpy : pat ++ y with
  | nil =>
    obtain ⟨hp1, hp2⟩ := List.append_eq_nil.mp hpy
    subst hp1
    simp [countOccs]
  | cons c r =>
    rw [hpy] at hp
    simp [countOccs, hp]
    try omega

theorem one_le_countOccs_of_decomp (pat x y : List Char) :
    1 ≤ countOccs pat (x ++ pat ++ y) := by
  calc 1 ≤ countOccs pat (pat ++ y) := one_le_countOccs_self_append pat y
    _ ≤ countOccs pat (x ++ (pat ++ y)) := le_countOccs_append pat x _
    _ = countOccs pat (x ++ pat ++ y) := by rw [List.append_assoc]

theorem exists_decomp_of_countOccs_pos (pat : List Char) :
    ∀ l : List Char, 0 < countOccs pat l → ∃ x y, l = x ++ pat ++ y := by
  intro l
  induction l with
  | nil =>
    intro h
    by_cases hp : pat = []
    · exact ⟨[], [], by simp [hp]⟩
    · simp [countOccs, hp] at h
  | cons a t ih =>
    intro h
    by_cases hp : pat.isPrefixOf (a :: t) = true
    · obtain ⟨u, hu⟩ := (isPrefixOf_iff_exists pat (a :: t)).mp hp
      exact ⟨[], u, by simp [hu]⟩
    · rw [Bool.not_eq_true] at hp
      simp only [countOccs, hp, Bool.false_eq_true, if_false, Nat.zero_add] at h
      obtain ⟨x, y, hxy⟩ := ih h
      exact ⟨a :: x, y, by simp [hxy]⟩

/-- If `r` occurs contiguously inside `L` and `pat` does not occur in `L`,
then `pat` does not occur in `r`. -/
theorem countOccs_zero_of_sub (pat r L : List Char)
    (hsub : ∃ x y, L = x ++ r ++ y) (h : countOccs pat L = 0) :
    countOccs pat r = 0 := by
  by_contra hne
  obtain ⟨u, v, huv⟩ := exists_decomp_of_countOccs_pos pat r (Nat.pos_of_ne_zero hne)
  obtain ⟨x, y, hxy⟩ := hsub
  have : L = (x ++ u) ++ pat ++ (v ++ y) := by
    rw [hxy, huv]; simp
  have hpos := one_le_countOccs_of_decomp pat (x ++ u) (v ++ y)
  rw [← this] at hpos
  omega

theorem isPrefixOf_takeWhile (q : Char → Bool) (pat : List Char)
    (hal : ∀ c ∈ pat, q c = false) :
    ∀ l : List Char, pat.isPrefixOf (l.takeWhile fun c => !(q c)) = pat.isPrefixOf l := by
  induction pat with
  | nil => intro l; simp [List.isPrefixOf]
  | cons a p' ih =>
    intro l
    have ha : q a = false := hal a (by simp)
    have hal' : ∀ c ∈ p', q c = false := fun c hc => hal c (by simp [hc])
    cases l with
    | nil => simp
    | cons b t =>
      by_cases hb : q b
      · rw [List.takeWhile_cons_of_neg (by simp [hb])]
        have hne : ¬ a = b := by rintro rfl; rw [ha] at hb; exact absurd hb (by simp)
        have hab : (a == b) = false := beq_eq_false_iff_ne.mpr hne
        simp [List.isPrefixOf, hab]
      · rw [List.takeWhile_cons_of_pos (by simp [hb])]
        simp only [List.isPrefixOf, ih hal' t]

/-- For a nonempty pattern made of non-delimiter characters, occurrences in a
list are exactly the occurrences inside the delimiter-separated segments. -/
theorem countOccs_eq_sum_segments (q : Char → Bool) (pat : List Char)
    (hne : pat ≠ []) (hal : ∀ c ∈ pat, q c = false) :
    ∀ l : List Char, countOccs pat l = ((splitOnP q l).map (countOccs pat)).sum := by
  intro l
  induction l with
  | nil => simp [splitOnP, countOccs, hne]
  | cons a t ih =>
    by_cases h : q a
    · have hnp : pat.isPrefixOf (a :: t) = false := by
        cases pat with
        | nil => exact absurd rfl hne
        | cons x p' =>
          rw [Bool.eq_false_iff]
          intro hp
          obtain ⟨u, hu⟩ := (isPrefixOf_iff_exists _ _).mp hp
          injection hu with h1 h2
          subst h1
          rw [hal a (by simp)] at h
          exact absurd h (by simp)
      simp [splitOnP, h, countOccs, hnp, ih, hne]
    · simp only [splitOnP, h, if_neg, Bool.false_eq_true, not_false_iff]
      cases hs : splitOnP q t with
      | nil => exact absurd hs (splitOnP_ne_nil q t)
      | cons s ss =>
        obtain ⟨ss', hss'⟩ := splitOnP_head q t
        rw [hss'] at hs
        injection hs with hs1 hs2
        subst hs2
        have hpre : pat.isPrefixOf (a :: s) = pat.isPrefixOf (a :: t) := by
          rw [← hs1]
          cases pat with
          | nil => simp [List.isPrefixOf]
          | cons x p' =>
            simp only [List.isPrefixOf]
            rw [isPrefixOf_takeWhile q p' (fun c hc => hal c (by simp [hc])) t]
        have ihs : countOccs pat t = countOccs pat s + (ss'.map (countOccs pat)).sum := by
          rw [ih, hss', ← hs1]; simp
        simp only [List.map_cons, List.sum_cons, countOccs, hpre, ihs]
        omega

/-! ### The regex searches of `extract_asin`

`main.py` runs `re.search(r'/dp/([A-Z0-9]{10})(?:/|\?|$)', url)` and, as a
last resort, `re.search(r'/([A-Z0-9]{10})(?:/|\?|$)', url)`.  Both patterns
are deterministic: a match at a position is a literal head, ten characters
from the class `[A-Z0-9]`, and a one-character boundary (`/`, `?`, or end of
string; Python's `$` also accepts a single trailing newline). `re.search`
returns the match at the leftmost possible starting position. -/

/-- The character class `[A-Z0-9]`. -/
def isUpperAlnum (c : Char) : Bool := c.isUpper || c.isDigit

/-- The boundary `(?:/|\?|$)` of both regexes; Python's `$` matches at the
end of the string or just before a trailing newline. -/
def reBoundary : List Char → Bool
  | [] => true
  | [c] => c == '/' || c == '?' || c == '\n'
  | c :: _ :: _ => c == '/' || c == '?'

/-- Try to match `/dp/([A-Z0-9]{10})(?:/|\?|$)` at the head of `l`,
returning the captured group. -/
def matchDpAt (l : List Char) : Option (List Char) :=
  if l.take 4 = ['/', 'd', 'p', '/'] then
    let code := (l.drop 4).take 10
    let after := (l.drop 4).drop 10
    if code.length == 10 && code.all isUpperAlnum && reBoundary after then some code
    else none
  else none

/-- `re.search` for the `/dp/` pattern: the match at the leftmost position. -/
def searchDp : List Char → Option (List Char)
  | [] => none
  | a :: t =>
    match matchDpAt (a :: t) with
    | some c => some c
    | none => searchDp t

/-- Try to match `/([A-Z0-9]{10})(?:/|\?|$)` at the head of `l`. -/
def matchSegAt (l : List Char) : Option (List Char) :=
  match l with
  | [] => none
  | a :: r =>
    if a = '/' then
      let code := r.take 10
      let after := r.drop 10
      if code.length == 10 && code.all isUpperAlnum && reBoundary after then some code
      else none
    else none

/-- `re.search` for the generic 10-character-segment pattern. -/
def searchSeg : List Char → Option (List Char)
  | [] => none
  | a :: t =>
    match matchSegAt (a :: t) with
    | some c => some c
    | none => searchSeg t

/-! ### CPython's `urllib.parse.urlparse`, restricted to the `path` component

`urlsplit` first strips leading C0-control/space characters, removes every
tab, carriage return and newline, then splits off `scheme` (a leading
`[a-zA-Z][a-zA-Z0-9+.-]*:`), `netloc` (after a leading `//`, up to the next
`/`, `?` or `#`), the fragment (after the first `#`) and the query (after
the first `?`).  `urlparse` additionally splits parameters after a `;` in
the last path segment when the scheme uses parameters. -/

def isC0OrSpace (c : Char) : Bool := c.toNat ≤ 32

def isTabCrLf (c : Char) : Bool := c == '\t' || c == '\r' || c == '\n'

/-- The sanitisation `urlsplit` applies to its argument before parsing. -/
def cleanUrl (u : List Char) : List Char :=
  (u.dropWhile isC0OrSpace).filter (fun c => !(isTabCrLf c))

/-- The characters allowed in a URL scheme. -/
def isSchemeChar (c : Char) : Bool := c.isAlpha || c.isDigit || c == '+' || c == '-' || c == '.'

def boolHeadAlpha : List Char → Bool
  | [] => false
  | c :: _ => c.isAlpha

/-- Split off a leading scheme, returning `(lowercased scheme, rest)`;
the scheme is empty when there is no valid scheme prefix. -/
def schemeSplit (u : List Char) : List Char × List Char :=
  let pre := u.takeWhile (fun c => c != ':')
  if Nat.blt pre.length u.length && boolHeadAlpha pre && pre.all isSchemeChar then
    (pre.map Char.toLower, u.drop (pre.length + 1))
  else ([], u)

/-- Drop a leading `//netloc`; the remainder starts at the first `/`, `?`
or `#` after the authority (or is empty). -/
def stripNetloc (u : List Char) : List Char :=
  if u.take 2 = ['/', '/'] then
    (u.drop 2).dropWhile (fun c => !(c == '/' || c == '?' || c == '#'))
  else u

/-- The netloc `_splitnetloc` cuts out of `u` when `u` starts with `//`. -/
def netlocOf (u : List Char) : List Char :=
  (u.drop 2).takeWhile (fun c => !(c == '/' || c == '?' || c == '#'))

/-- CPython's `urlsplit` is not total: it raises `ValueError` when a
`//netloc` contains an unbalanced square bracket (`Invalid IPv6 URL`),
when a bracketed host fails IPv6/IPvFuture validation, or when a non-ASCII
netloc changes under NFKC normalisation.  `urlsplitSafe` is a sufficient
condition for `urlsplit` to return normally: either the scheme-stripped
sanitised URL has no `//netloc` at all, or that netloc contains no square
bracket and is pure ASCII. -/
def urlsplitSafe (raw : List Char) : Bool :=
  let u1 := (schemeSplit (cleanUrl raw)).2
  if u1.take 2 = ['/', '/'] then
    (netlocOf u1).all (fun c => !(c == '[') && !(c == ']') && Nat.blt c.toNat 128)
  else true

/-- The schemes for which `urlparse` splits `;parameters` off the path. -/
def usesParams : List (List Char) :=
  [[], ['f','t','p'], ['h','d','l'], ['p','r','o','s','p','e','r','o'],
   ['h','t','t','p'], ['i','m','a','p'], ['h','t','t','p','s'],
   ['s','h','t','t','p'], ['r','t','s','p'], ['r','t','s','p','u'],
   ['s','i','p'], ['s','i','p','s'], ['m','m','s'], ['s','f','t','p'],
   ['t','e','l']]

/-- `_splitparams`: cut the path at the first `;` occurring in its last
`/`-separated segment (first `;` anywhere when the path has no `/`). -/
def cutParams (p : List Char) : List Char :=
  if p.contains '/' then
    let segRev := p.reverse.takeWhile (fun c => c != '/')
    let lastSeg := segRev.reverse
    if lastSeg.contains ';' then
      (p.reverse.dropWhile (fun c => c != '/')).reverse ++
        lastSeg.takeWhile (fun c => c != ';')
    else p
  else p.takeWhile (fun c => c != ';')

/-- `urlsplit(raw).path`: scheme and netloc stripped, then truncated at the
fragment (`#`) and the query (`?`). -/
def preParamsPath (raw : List Char) : List Char :=
  (((stripNetloc (schemeSplit (cleanUrl raw)).2).takeWhile
    (fun c => c != '#')).takeWhile (fun c => c != '?'))

/-- `urlparse(raw).path`, for URLs on which `urlsplit` returns normally.
This function is total, so it does not model `urlsplit`'s `ValueError`
paths (see `urlsplitSafe`): statements about `extract_asin` returning
absent are therefore scoped by `urlsplitSafe`; on URLs outside that scope
the real `extract_asin` can raise instead of returning. -/
def urlparsePath (raw : List Char) : List Char :=
  let u4 := preParamsPath raw
  if usesParams.contains (schemeSplit (cleanUrl raw)).1 && u4.contains ';' then
    cutParams u4
  else u4

/-! ### `extract_asin` -/

/-- The scan over `path_parts`: return the segment following a segment equal
to `dp` whenever that following segment has exactly 10 characters. -/
def dpScan : List (List Char) → Option (List Char)
  | p₁ :: p₂ :: rest =>
    if p₁ = ['d', 'p'] ∧ p₂.length = 10 then some p₂ else dpScan (p₂ :: rest)
  | _ => none

/-- `extract_asin` from `main.py`: the `/dp/` regex, then the
`urlparse`-path scan, then the generic 10-character-segment regex. -/
def extract_asin (url : String) : Option String :=
  match searchDp url.data with
  | some c => some (String.mk c)
  | none =>
    match dpScan (splitOnP (fun c => c == '/') (urlparsePath url.data)) with
    | some c => some (String.mk c)
    | none =>
      match searchSeg url.data with
      | some c => some (String.mk c)
      | none => none

/-! ### `create_associate_url`

Python's f-string renders `None` as the text `None`; optional strings are
modelled as `Option String` and environment variables as explicit
parameters (`none` = unset). -/

/-- Python `str()` / f-string interpolation of an `Optional[str]`. -/
def pyStr : Option String → String
  | none => "None"
  | some s => s

/-- Python truthiness of an `Optional[str]`: `None` and `""` are falsy. -/
def pyTruthy : Option String → Bool
  | none => false
  | some s => !(s == "")

/-- `create_associate_url(asin, associate_id)`; `envAssociateId` is the
value of the `AMAZON_ASSOCIATE_ID` environment variable. -/
def create_associate_url (asin : Option String) (associate_id : Option String)
    (envAssociateId : Option String) : String :=
  let aid :=
    match associate_id with
    | some a => a
    | none =>
      match envAssociateId with
      | some e => e
      | none => "yourtrackingid"
  "https://www.amazon.com/dp/" ++ pyStr asin ++ "/ref=nosim?tag=" ++ aid

/-- The affiliate tag `create_associate_url` ends up using. -/
def resolvedTag (associate_id : Option String) (envAssociateId : Option String) : String :=
  match associate_id with
  | some a => a
  | none =>
    match envAssociateId with
    | some e => e
    | none => "yourtrackingid"

theorem create_associate_url_eq (asin : Option String) (aid env : Option String) :
    create_associate_url asin aid env =
      "https://www.amazon.com/dp/" ++ pyStr asin ++ "/ref=nosim?tag=" ++ resolvedTag aid env := by
  cases aid <;> cases env <;> rfl

/-! ### `get_amazon_price`

The HTTP response and the two HTML lookups are modelled abstractly: the
text of the first `span.a-offscreen` element (absent when the element is
missing, in which case `.getText()` raises `AttributeError`, caught by the
function), and the `data-csa-c-delivery-price` attribute of the delivery
element (`some none` = element present but attribute missing). -/

structure HttpResponse where
  status_code : Nat
  itemPriceSpan : Option String
  deliveryAttr : Option (Option String)

/-- `get_amazon_price`, as a function of the response for the fetched URL. -/
def get_amazon_price (resp : HttpResponse) : Option String × Option String :=
  if resp.status_code ≠ 200 then (none, none)
  else
    match resp.itemPriceSpan with
    | none => (none, none)
    | some item_price =>
      let delivery_price :=
        match resp.deliveryAttr with
        | some attr => attr
        | none => none
      (some item_price, delivery_price)

/-! ### `send_telegram_message` -/

/-- Outcome of the single `requests.post` call: a response status, or a
raised transport exception. -/
inductive PostOutcome where
  | ok (status : Nat)
  | raised
deriving DecidableEq

/-- `x if x is not None else os.getenv(...)`. -/
def resolveEnv (arg env : Option String) : Option String :=
  match arg with
  | some a => some a
  | none => env

/-- `send_telegram_message`; returns the boolean result together with the
number of outbound requests performed. -/
def send_telegram_message (message : String) (bot_token chat_id : Option String)
    (envTok envChat : Option String) (post : PostOutcome) : Bool × Nat :=
  let bt := resolveEnv bot_token envTok
  let ci := resolveEnv chat_id envChat
  if !(pyTruthy bt) || !(pyTruthy ci) then (false, 0)
  else
    match post with
    | .ok status => (status == 200, 1)
    | .raised => (false, 1)

/-! ### `load_products` and the JSON model

`json.load` is modelled by a small recursive-descent JSON parser (numbers
are kept as their lexemes).  `load_products` catches only
`FileNotFoundError` and `JSONDecodeError`; any successfully parsed JSON
value is returned as-is. -/

inductive JsonVal where
  | null
  | bool (b : Bool)
  | num (raw : String)
  | str (s : String)
  | arr (xs : List JsonVal)
  | obj (kvs : List (String × JsonVal))

def isJsonWs (c : Char) : Bool := c == ' ' || c == '\t' || c == '\n' || c == '\r'

def skipWs (l : List Char) : List Char := l.dropWhile isJsonWs

def isHexDigit (c : Char) : Bool := c.isDigit || ('a' ≤ c && c ≤ 'f') || ('A' ≤ c && c ≤ 'F')

def hexVal (c : Char) : Nat :=
  if c.isDigit then c.toNat - '0'.toNat
  else if 'a' ≤ c && c ≤ 'f' then c.toNat - 'a'.toNat + 10
  else c.toNat - 'A'.toNat + 10

/-- Parse the remainder of a JSON string literal (after the opening quote). -/
def parseStringRest : Nat → List Char → Option (List Char × List Char)
  | 0, _ => none
  | _ + 1, [] => none
  | fuel + 1, c :: r =>
    if c == '"' then some ([], r)
    else if c == '\\' then
      match r with
      | [] => none
      | e :: r' =>
        let esc : Option (List Char × List Char) :=
          if e == '"' then some (['"'], r')
          else if e == '\\' then some (['\\'], r')
          else if e == '/' then some (['/'], r')
          else if e == 'b' then some (['\x08'], r')
          else if e == 'f' then some (['\x0c'], r')
          else if e == 'n' then some (['\n'], r')
          else if e == 'r' then some (['\r'], r')
          else if e == 't' then some (['\t'], r')
          else if e == 'u' then
            match r' with
            | h₁ :: h₂ :: h₃ :: h₄ :: r'' =>
              if isHexDigit h₁ && isHexDigit h₂ && isHexDigit h₃ && isHexDigit h₄ then
                let n := ((hexVal h₁ * 16 + hexVal h₂) * 16 + hexVal h₃) * 16 + hexVal h₄
                some ([Char.ofNat n], r'')
              else none
            | _ => none
          else none
        match esc with
        | none => none
        | some (cs, rest) =>
          match parseStringRest fuel rest with
          | none => none
          | some (tl, fin) => some (cs ++ tl, fin)
    else
      match parseStringRest fuel r with
      | none => none
      | some (tl, fin) => some (c :: tl, fin)

/-- Parse a JSON number lexeme (`-?int frac? exp?`), returning it raw. -/
def parseNum (l : List Char) : Option (List Char × List Char) :=
  let (sign, l₁) :=
    match l with
    | '-' :: r => (['-'], r)
    | _ => (([] : List Char), l)
  let intPart := l₁.takeWhile Char.isDigit
  let l₂ := l₁.dropWhile Char.isDigit
  if intPart.isEmpty then none
  else
    let (frac, l₃) :=
      match l₂ with
      | '.' :: r =>
        let ds := r.takeWhile Char.isDigit
        if ds.isEmpty then (([] : List Char), l₂)
        else ('.' :: ds, r.dropWhile Char.isDigit)
      | _ => (([] : List Char), l₂)
    let (ex, l₄) :=
      match l₃ with
      | e :: r =>
        if e == 'e' || e == 'E' then
          let (es, r₁) :=
            match r with
            | s :: r' => if s == '+' || s == '-' then ([s], r') else (([] : List Char), r)
            | [] => (([] : List Char), r)
          let ds := r₁.takeWhile Char.isDigit
          if ds.isEmpty then (([] : List Char), l₃)
          else (e :: (es ++ ds), r₁.dropWhile Char.isDigit)
        else (([] : List Char), l₃)
      | [] => (([] : List Char), l₃)
    some (sign ++ intPart ++ frac ++ ex, l₄)

mutual

/-- Parse one JSON value. -/
def parseVal : Nat → List Char → Option (JsonVal × List Char)
  | 0, _ => none
  | fuel + 1, l =>
    match skipWs l with
    | 'n' :: 'u' :: 'l' :: 'l' :: r => some (.null, r)
    | 't' :: 'r' :: 'u' :: 'e' :: r => some (.bool true, r)
    | 'f' :: 'a' :: 'l' :: 's' :: 'e' :: r => some (.bool false, r)
    | '"' :: r =>
      match parseStringRest (r.length + 1) r with
      | none => none
      | some (s, rest) => some (.str (String.mk s), rest)
    | '[' :: r =>
      match skipWs r with
      | ']' :: r' => some (.arr [], r')
      | _ =>
        match parseItems fuel (skipWs r) with
        | none => none
        | some (xs, rest) => some (.arr xs, rest)
    | '{' :: r =>
      match skipWs r with
      | '}' :: r' => some (.obj [], r')
      | _ =>
        match parsePairs fuel (skipWs r) with
        | none => none
        | some (kvs, rest) => some (.obj kvs, rest)
    | other => match parseNum other with
      | none => none
      | some (n, rest) => some (.num (String.mk n), rest)

/-- Parse one or more comma-separated array items up to `]`. -/
def parseItems : Nat → List Char → Option (List JsonVal × List Char)
  | 0, _ => none
  | fuel + 1, l =>
    match parseVal fuel l with
    | none => none
    | some (v, rest) =>
      match skipWs rest with
      | ',' :: r =>
        match parseItems fuel r with
        | none => none
        | some (vs, rest') => some (v :: vs, rest')
      | ']' :: r => some ([v], r)
      | _ => none

/-- Parse one or more comma-separated `"key": value` pairs up to `}`. -/
def parsePairs : Nat → List Char → Option (List (String × JsonVal) × List Char)
  | 0, _ => none
  | fuel + 1, l =>
    match skipWs l with
    | '"' :: r =>
      match parseStringRest (r.length + 1) r with
      | none => none
      | some (k, rest) =>
        match skipWs rest with
        | ':' :: r' =>
          match parseVal fuel r' with
          | none => none
          | some (v, rest') =>
            match skipWs rest' with
            | ',' :: r'' =>
              match parsePairs fuel r'' with
              | none => none
              | some (kvs, fin) => some ((String.mk k, v) :: kvs, fin)
            | '}' :: r'' => some ([(String.mk k, v)], r'')
            | _ => none
        | _ => none
    | _ => none

end

/-- `json.loads`: parse one JSON document; trailing non-whitespace is an
error. -/
def json_loads (s : String) : Option JsonVal :=
  match parseVal (2 * s.data.length + 2) s.data with
  | none => none
  | some (v, rest) => if skipWs rest = [] then some v else none

/-- Result of `open(filename)` + read. -/
inductive ReadResult where
  | missing
  | ok (content : String)

/-- `load_products(filename)`, with the filesystem passed as an oracle.
`FileNotFoundError` and `json.JSONDecodeError` yield `[]`; any parsed JSON
value is returned unchanged. -/
def load_products (fs : String → ReadResult) (filename : String := "products.json") : JsonVal :=
  match fs filename with
  | .missing => .arr []
  | .ok content =>
    match json_loads content with
    | none => .arr []
    | some v => v

/-! ### The monitor loop

One iteration of the `for product in products` body of
`monitor_products`, with the web and the Telegram endpoint passed as
oracles.  `StepResult` records the observable effects of processing one
product: the URLs fetched, the notification messages attempted, and the
lines printed. -/

structure Product where
  url : Option String
  nameOpt : Option String

structure Env where
  associateId : Option String
  telegramToken : Option String
  telegramChat : Option String

structure StepResult where
  fetched : List String
  notices : List String
  printed : List String
deriving DecidableEq

def String.lowerPy (s : String) : String := String.mk (s.data.map Char.toLower)

/-- The loop body of `monitor_products` for a single product. -/
def processProduct (env : Env) (associate_id bot_token chat_id : Option String)
    (web : String → HttpResponse) (post : String → PostOutcome) (p : Product) :
    StepResult :=
  match p.url with
  | none => ⟨[], [], []⟩
  | some u =>
    if u = "" then ⟨[], [], []⟩
    else
      let name := p.nameOpt.getD "Unknown Product"
      match extract_asin u with
      | none => ⟨[], [], ["Error: Could not extract ASIN from URL for " ++ name]⟩
      | some asin =>
        let associate_url := create_associate_url (some asin) associate_id env.associateId
        let pr := get_amazon_price (web associate_url)
        match pr.1 with
        | none => ⟨[associate_url], [], ["Error: Could not get price for " ++ name]⟩
        | some item_price =>
          if item_price = "" then
            ⟨[associate_url], [], ["Error: Could not get price for " ++ name]⟩
          else
            if pyTruthy pr.2 && (String.lowerPy (pr.2.getD "") == "free") then
              let message := "🎉 Free shipping available for " ++ name ++ "!\n" ++
                "Price: " ++ item_price ++ "\n" ++ "Link: " ++ associate_url
              let sent := send_telegram_message message bot_token chat_id
                env.telegramToken env.telegramChat (post message)
              ⟨[associate_url], [message],
                [if sent.1 then "Notification sent for " ++ name
                 else "Failed to send notification for " ++ name]⟩
            else
              ⟨[associate_url], [],
                [name ++ ": " ++ item_price ++ " (Shipping: " ++
                  (match pr.2 with
                   | some d => if d = "" then "Unknown" else d
                   | none => "Unknown") ++ ")"]⟩

/-- One full cycle of the `while True` loop over the product list. -/
def cycleResults (env : Env) (associate_id bot_token chat_id : Option String)
    (web : String → HttpResponse) (post : String → PostOutcome)
    (products : List Product) : List StepResult :=
  products.map (processProduct env associate_id bot_token chat_id web post)

/-- The outcomes of cycle `n` of the infinite loop, with cycle-indexed
oracles.  The loop keeps no state between cycles, so cycle `n` is fully
determined by the cycle's own oracles. -/
def monitorTrace (env : Env) (associate_id bot_token chat_id : Option String)
    (web : Nat → String → HttpResponse) (post : Nat → String → PostOutcome)
    (products : List Product) (n : Nat) : List StepResult :=
  cycleResults env associate_id bot_token chat_id (web n) (post n) products

/-! ### `check_price` -/

/-- The URL that the `check_price` command passes to `get_amazon_price`.
When extraction fails the original URL is stored in the dead variable
`asin_url` and never used; the fetched URL is always the associate URL
built from the (possibly absent) ASIN. -/
def check_price_fetched (url : String) (associate_id : Option String)
    (envAssociateId : Option String) : String :=
  let asin := extract_asin url
  let asin_url :=
    match asin with
    | none => url
    | some a => "https://www.amazon.com/dp/" ++ a
  let associate_url := create_associate_url asin associate_id envAssociateId
  associate_url

/-! ## Claim C4 -/

/-- C4: for every fetched page, if the HTTP response status is not a
success status (2xx), or the expected item-price HTML field is not present
in the response body, `get_amazon_price` returns both fields absent and
does not raise (the embedding is a total function). -/
theorem c4_fetch_failure_yields_absent (resp : HttpResponse)
    (h : ¬(200 ≤ resp.status_code ∧ resp.status_code ≤ 299) ∨ resp.itemPriceSpan = none) :
    get_amazon_price resp = (none, none) := by
  rcases h with h | h
  · have hne : resp.status_code ≠ 200 := fun heq => h (by omega)
    simp [get_amazon_price, hne]
  · by_cases hs : resp.status_code = 200
    · simp [get_amazon_price, hs, h]
    · simp [get_amazon_price, hs]

theorem c4_witness : get_amazon_price ⟨404, some "$9.99", none⟩ = (none, none) :=
  c4_fetch_failure_yields_absent ⟨404, some "$9.99", none⟩ (Or.inl (by decide))

/-! ## Claim C5 -/

/-- C5: if either notification configuration value is absent — neither
passed as an argument nor available from the environment — then
`send_telegram_message` returns `False` immediately and performs no
outbound request, whatever the network would have answered. -/
theorem c5_missing_credentials_no_request (message : String)
    (bot_token chat_id envTok envChat : Option String) (post : PostOutcome)
    (h : (bot_token = none ∧ envTok = none) ∨ (chat_id = none ∧ envChat = none)) :
    send_telegram_message message bot_token chat_id envTok envChat post = (false, 0) := by
  rcases h with ⟨h1, h2⟩ | ⟨h1, h2⟩ <;> subst h1 <;> subst h2 <;>
    simp [send_telegram_message, resolveEnv, pyTruthy]

theorem c5_witness :
    send_telegram_message "hello" none none none none (.ok 200) = (false, 0) :=
  c5_missing_credentials_no_request "hello" none none none none (.ok 200)
    (Or.inl ⟨rfl, rfl⟩)

/-! ## Claim C6 -/

/-- C6 is refuted as stated: with both credentials present and a response
status of 201 — a success-range status — the function returns `False`
(it accepts only exactly 200). -/
theorem c6_counterexample :
    (200 ≤ 201 ∧ 201 ≤ 299) ∧
    send_telegram_message "m" (some "t") (some "c") none none (.ok 201) = (false, 1) := by
  constructor
  · decide
  · decide

/-- C6 (amended): with both credentials present (truthy after environment
fallback), `send_telegram_message` performs exactly one outbound request
and returns `True` exactly when the response status equals 200; a transport
exception is converted to `False` and never propagates. -/
theorem c6_one_request_success_iff_200 (message : String)
    (bot_token chat_id envTok envChat : Option String) (post : PostOutcome)
    (hbt : pyTruthy (resolveEnv bot_token envTok) = true)
    (hci : pyTruthy (resolveEnv chat_id envChat) = true) :
    (send_telegram_message message bot_token chat_id envTok envChat post).2 = 1 ∧
    ((send_telegram_message message bot_token chat_id envTok envChat post).1 = true ↔
      post = .ok 200) := by
  cases post with
  | ok s =>
    simp [send_telegram_message, hbt, hci]
  | raised =>
    simp [send_telegram_message, hbt, hci]

theorem c6_witness :
    (send_telegram_message "m" (some "t") (some "c") none none (.ok 200)).2 = 1 ∧
    ((send_telegram_message "m" (some "t") (some "c") none none (.ok 200)).1 = true ↔
      PostOutcome.ok 200 = PostOutcome.ok 200) :=
  c6_one_request_success_iff_200 "m" (some "t") (some "c") none none (.ok 200)
    (by decide) (by decide)

/-! ## Claim C8 -/

/-- C8 is refuted as stated: the file contents `5` are a malformed product
file (a number, not a list of products), yet `load_products` returns the
parsed number unchanged instead of an empty list — only a missing file and
syntactically invalid JSON are mapped to `[]`. -/
theorem c8_counterexample :
    json_loads "5" = some (JsonVal.num "5") ∧
    load_products (fun _ => ReadResult.ok "5") "products.json" = JsonVal.num "5" ∧
    JsonVal.num "5" ≠ JsonVal.arr [] := by
  refine ⟨rfl, rfl, ?_⟩
  intro h
  exact JsonVal.noConfusion h

/-- C8 (amended): loading returns an empty list, without raising, when the
file is missing or its contents fail to parse as JSON; a syntactically
valid JSON value of any other shape is returned unchanged. -/
theorem c8_missing_or_invalid_yields_empty (fs : String → ReadResult) (filename : String)
    (h : fs filename = .missing ∨ ∃ c, fs filename = .ok c ∧ json_loads c = none) :
    load_products fs filename = .arr [] := by
  unfold load_products
  rcases h with h | ⟨c, hc, hp⟩
  · rw [h]
  · rw [hc]; simp [hp]

theorem c8_witness : load_products (fun _ => ReadResult.missing) "products.json" = .arr [] :=
  c8_missing_or_invalid_yields_empty (fun _ => ReadResult.missing) "products.json"
    (Or.inl rfl)

/-! ## Claim C9 -/

theorem one_le_countOccs_of_decompEq (pat l x y : List Char)
    (h : l = x ++ pat ++ y) : 1 ≤ countOccs pat l :=
  h ▸ one_le_countOccs_of_decomp pat x y

/-- C9: when identifier extraction fails, `check_price` does not fetch the
original URL; it fetches the associate URL built from the absent
identifier, which renders the literal text `None` in the identifier slot.
 -/
theorem c9_failed_extraction_fetches_none_url (url : String)
    (aid env : Option String) (h : extract_asin url = none) :
    check_price_fetched url aid env =
      "https://www.amazon.com/dp/None/ref=nosim?tag=" ++ resolvedTag aid env ∧
    1 ≤ countOccs "None".data (check_price_fetched url aid env).data := by
  have heq : check_price_fetched url aid env =
      "https://www.amazon.com/dp/None/ref=nosim?tag=" ++ resolvedTag aid env := by
    unfold check_price_fetched
    rw [h]
    cases aid with
    | some a => rfl
    | none =>
      cases env with
      | some e => rfl
      | none => rfl
  refine ⟨heq, ?_⟩
  rw [heq]
  refine one_le_countOccs_of_decompEq "None".data _
    "https://www.amazon.com/dp/".data
    ("/ref=nosim?tag=".data ++ (resolvedTag aid env).data) ?_
  show "https://www.amazon.com/dp/None/ref=nosim?tag=".data ++ (resolvedTag aid env).data
      = "https://www.amazon.com/dp/".data ++ "None".data ++
        ("/ref=nosim?tag=".data ++ (resolvedTag aid env).data)
  simp

theorem c9_witness :
    check_price_fetched "notaurl" none none =
      "https://www.amazon.com/dp/None/ref=nosim?tag=" ++ resolvedTag none none ∧
    1 ≤ countOccs "None".data (check_price_fetched "notaurl" none none).data :=
  c9_failed_extraction_fetches_none_url "notaurl" none none (by decide)

/-! ## Claim C10 -/

/-- C10: a product whose `url` field is missing or empty is skipped
silently — nothing fetched, no notification attempted, nothing printed —
and the other products of the cycle are processed exactly as they would be
without it. -/
theorem c10_missing_url_skipped_silently (env : Env) (aid bt ci : Option String)
    (web : String → HttpResponse) (post : String → PostOutcome) (p : Product)
    (h : p.url = none ∨ p.url = some "") :
    processProduct env aid bt ci web post p = ⟨[], [], []⟩ ∧
    ∀ xs ys, cycleResults env aid bt ci web post (xs ++ p :: ys) =
      cycleResults env aid bt ci web post xs ++
        (⟨[], [], []⟩ : StepResult) :: cycleResults env aid bt ci web post ys := by
  have h1 : processProduct env aid bt ci web post p = ⟨[], [], []⟩ := by
    rcases h with h | h <;> simp [processProduct, h]
  exact ⟨h1, fun xs ys => by simp [cycleResults, h1]⟩

theorem c10_witness :
    processProduct ⟨none, none, none⟩ none none none
      (fun _ => ⟨200, some "$1", none⟩) (fun _ => .ok 200) ⟨none, some "X"⟩ =
      ⟨[], [], []⟩ ∧
    cycleResults ⟨none, none, none⟩ none none none
      (fun _ => ⟨200, some "$1", none⟩) (fun _ => .ok 200)
      ([] ++ ⟨none, some "X"⟩ :: []) =
      cycleResults ⟨none, none, none⟩ none none none
        (fun _ => ⟨200, some "$1", none⟩) (fun _ => .ok 200) [] ++
        (⟨[], [], []⟩ : StepResult) :: cycleResults ⟨none, none, none⟩ none none none
          (fun _ => ⟨200, some "$1", none⟩) (fun _ => .ok 200) [] := by
  have h := c10_missing_url_skipped_silently ⟨none, none, none⟩ none none none
    (fun _ => ⟨200, some "$1", none⟩) (fun _ => .ok 200) ⟨none, some "X"⟩ (Or.inl rfl)
  exact ⟨h.1, h.2 [] []⟩

/-! ## Claim C1 -/

/-- C1 is refuted as stated: a fetched item price that is present but empty
(`("", "Free")` — the `a-offscreen` span exists with empty text) is skipped
by `if not item_price` before the free-shipping classification, so a
product with delivery string `"Free"` gets zero notification attempts even
though its `itemPrice` is present. -/
theorem c1_counterexample :
    get_amazon_price ((fun _ => (⟨200, some "", some (some "Free")⟩ : HttpResponse))
        (create_associate_url (some "B08N5WRWNW") none none)) = (some "", some "Free") ∧
    String.lowerPy "Free" = "free" ∧
    (processProduct ⟨none, none, none⟩ none none none
        (fun _ => ⟨200, some "", some (some "Free")⟩) (fun _ => .ok 200)
        ⟨some "https://www.amazon.com/dp/B08N5WRWNW", some "Widget"⟩).notices.length
      = 0 := by
  refine ⟨by decide, by decide, ?_⟩
  decide

/-- C1 (amended): in every monitor-loop cycle, for every product whose
fetched `itemPrice` is present and nonempty, the loop classifies the
product as free-shipping — attempting exactly one notification — exactly
when `deliveryPrice` is present and case-insensitively equals `"free"`
(so the literal delivery strings `"Free"`, `"FREE"`, `"free"` each trigger
exactly one attempt); and the loop keeps no per-product state, so cycles
with identical fetch and post oracles produce identical outcomes
(re-notification every cycle). -/
theorem c1_free_shipping_classification (env : Env) (aid bt ci : Option String)
    (web : String → HttpResponse) (post : String → PostOutcome) (p : Product)
    (u : String) (hu : p.url = some u) (hne : u ≠ "")
    (asin : String) (ha : extract_asin u = some asin)
    (ip : String) (dp : Option String)
    (hfetch : get_amazon_price (web (create_associate_url (some asin) aid env.associateId))
      = (some ip, dp))
    (hip : ip ≠ "") :
    ((processProduct env aid bt ci web post p).notices.length = 1 ↔
      ∃ d, dp = some d ∧ String.lowerPy d = "free") ∧
    (processProduct env aid bt ci web post p).notices.length ≤ 1 ∧
    (∀ (webs : Nat → String → HttpResponse) (posts : Nat → String → PostOutcome)
      (products : List Product) (n m : Nat), webs n = webs m → posts n = posts m →
      monitorTrace env aid bt ci webs posts products n =
        monitorTrace env aid bt ci webs posts products m) := by
  have hproc : (processProduct env aid bt ci web post p).notices =
      (if pyTruthy dp && (String.lowerPy (dp.getD "") == "free") then
        ["🎉 Free shipping available for " ++ p.nameOpt.getD "Unknown Product" ++ "!\n" ++
          "Price: " ++ ip ++ "\n" ++ "Link: " ++
          create_associate_url (some asin) aid env.associateId]
      else []) := by
    simp only [processProduct, hu, hne, if_neg, ha, hfetch]
    by_cases hfree : pyTruthy dp && (String.lowerPy (dp.getD "") == "free")
    · simp [hfree, hip]
    · simp [hfree, hip]
  refine ⟨?_, ?_, ?_⟩
  · rw [hproc]
    by_cases hfree : pyTruthy dp && (String.lowerPy (dp.getD "") == "free")
    · simp only [hfree, if_pos, List.length_singleton, true_iff]
      rcases dp with - | d
      · simp [pyTruthy] at hfree
      · refine ⟨d, rfl, ?_⟩
        have := (Bool.and_eq_true _ _).mp hfree
        simpa using this.2
    · simp only [hfree, if_neg, List.length_nil, Bool.false_eq_true]
      constructor
      · intro h0; exact absurd h0 (by simp)
      · rintro ⟨d, rfl, hd⟩
        exfalso
        apply hfree
        have hdne : d ≠ "" := by
          intro hd0; rw [hd0] at hd; exact absurd hd (by decide)
        simp [pyTruthy, hdne, Option.getD, hd]
  · rw [hproc]
    by_cases hfree : pyTruthy dp && (String.lowerPy (dp.getD "") == "free") <;>
      simp [hfree]
  · intro webs posts products n m hw hp
    unfold monitorTrace
    rw [hw, hp]

theorem c1_witness :
    ((processProduct ⟨none, none, none⟩ none none none
        (fun _ => ⟨200, some "$9.99", some (some "FREE")⟩) (fun _ => .ok 200)
        ⟨some "https://www.amazon.com/dp/B08N5WRWNW", some "Widget"⟩).notices.length = 1 ↔
      ∃ d, (some "FREE" : Option String) = some d ∧ String.lowerPy d = "free") ∧
    (processProduct ⟨none, none, none⟩ none none none
        (fun _ => ⟨200, some "$9.99", some (some "FREE")⟩) (fun _ => .ok 200)
        ⟨some "https://www.amazon.com/dp/B08N5WRWNW", some "Widget"⟩).notices.length ≤ 1 ∧
    (∀ (webs : Nat → String → HttpResponse) (posts : Nat → String → PostOutcome)
      (products : List Product) (n m : Nat), webs n = webs m → posts n = posts m →
      monitorTrace ⟨none, none, none⟩ none none none webs posts products n =
        monitorTrace ⟨none, none, none⟩ none none none webs posts products m) :=
  c1_free_shipping_classification ⟨none, none, none⟩ none none none
    (fun _ => ⟨200, some "$9.99", some (some "FREE")⟩) (fun _ => .ok 200)
    ⟨some "https://www.amazon.com/dp/B08N5WRWNW", some "Widget"⟩
    "https://www.amazon.com/dp/B08N5WRWNW" rfl (by decide)
    "B08N5WRWNW" (by decide) "$9.99" (some "FREE") (by decide) (by decide)

/-! ## Claim C7 -/

/-- C7 is refuted as stated: supplying the identifier itself as the
affiliate tag makes the identifier (and the tag) occur twice in the output,
not exactly once. -/
theorem c7_counterexample :
    countOccs "ABCDEFGHIJ".data
      (create_associate_url (some "ABCDEFGHIJ") (some "ABCDEFGHIJ") none).data = 2 := by
  decide

/-- The character predicate used to cut a URL into alphanumeric runs. -/
def notAlnum (c : Char) : Bool := !(c.isAlphanum)

/-- C7 (amended): for every 10-character alphanumeric identifier and every
nonempty alphanumeric resolved affiliate tag (supplied, environment-sourced
or the literal placeholder), provided neither occurs as a substring of the
other and the tag does not occur in the fixed URL skeleton, the link
builder's output contains the identifier exactly once and the tag exactly
once. -/
theorem c7_identifier_and_tag_once (asin : String) (aid env : Option String)
    (h10 : asin.data.length = 10) (hal : ∀ c ∈ asin.data, c.isAlphanum = true)
    (tagNe : resolvedTag aid env ≠ "")
    (tagAl : ∀ c ∈ (resolvedTag aid env).data, c.isAlphanum = true)
    (hAinT : countOccs asin.data (resolvedTag aid env).data = 0)
    (hTinA : countOccs (resolvedTag aid env).data asin.data = 0)
    (hTskel : countOccs (resolvedTag aid env).data
      "https://www.amazon.com/dp//ref=nosim?tag=".data = 0) :
    countOccs asin.data (create_associate_url (some asin) aid env).data = 1 ∧
    countOccs (resolvedTag aid env).data
      (create_associate_url (some asin) aid env).data = 1 := by
  set T := (resolvedTag aid env).data with hT
  have hTne : T ≠ [] := by
    intro hd
    exact tagNe (String.ext hd)
  have hO : (create_associate_url (some asin) aid env).data =
      "https://www.amazon.com/dp".data ++ '/' ::
        (asin.data ++ ('/' :: ("ref=nosim?tag".data ++ '=' :: T))) := by
    rw [create_associate_url_eq]
    simp only [String.data_append, pyStr, ← hT]
    simp [List.append_assoc]
  have hslash : notAlnum '/' = true := by decide
  have heq' : notAlnum '=' = true := by decide
  have hasinNoDelim : ∀ c ∈ asin.data, notAlnum c = false := by
    intro c hc; simp [notAlnum, hal c hc]
  have hTNoDelim : ∀ c ∈ T, notAlnum c = false := by
    intro c hc; simp [notAlnum, tagAl c hc]
  have hasinNe : asin.data ≠ [] := by
    intro hnil; rw [hnil] at h10; simp at h10
  have hsplit : splitOnP notAlnum (create_associate_url (some asin) aid env).data =
      splitOnP notAlnum "https://www.amazon.com/dp".data ++
        ([asin.data] ++ (splitOnP notAlnum "ref=nosim?tag".data ++ splitOnP notAlnum T)) := by
    rw [hO, splitOnP_append_delim notAlnum hslash,
      splitOnP_append_delim notAlnum hslash,
      splitOnP_append_delim notAlnum heq',
      splitOnP_no_delim notAlnum asin.data hasinNoDelim]
  have hsegsA : splitOnP notAlnum "https://www.amazon.com/dp".data =
      ["https".data, [], [], "www".data, "amazon".data, "com".data, "dp".data] := by
    decide
  have hsegsC : splitOnP notAlnum "ref=nosim?tag".data =
      ["ref".data, "nosim".data, "tag".data] := by
    decide
  constructor
  · rw [countOccs_eq_sum_segments notAlnum asin.data hasinNe hasinNoDelim, hsplit,
      hsegsA, hsegsC]
    have hTzero : ((splitOnP notAlnum T).map (countOccs asin.data)).sum = 0 := by
      apply List.sum_eq_zero
      intro x hx
      obtain ⟨r, hr, rfl⟩ := List.mem_map.mp hx
      exact countOccs_zero_of_sub asin.data r T (splitOnP_sub notAlnum T r hr) hAinT
    have hlt : ∀ l : List Char, l.length < 10 → countOccs asin.data l = 0 := by
      intro l hl
      exact countOccs_eq_zero_of_lt asin.data l (by omega)
    simp only [List.map_append, List.sum_append, List.map_cons, List.sum_cons,
      List.map_nil, List.sum_nil, hTzero]
    rw [countOccs_self asin.data hasinNe]
    rw [hlt "https".data (by decide), hlt [] (by decide), hlt "www".data (by decide),
      hlt "amazon".data (by decide), hlt "com".data (by decide), hlt "dp".data (by decide),
      hlt "ref".data (by decide), hlt "nosim".data (by decide), hlt "tag".data (by decide)]
    omega
  · rw [countOccs_eq_sum_segments notAlnum T hTne hTNoDelim, hsplit, hsegsA, hsegsC]
    have hskel : ∀ seg x y : List Char,
        "https://www.amazon.com/dp//ref=nosim?tag=".data = x ++ seg ++ y →
        countOccs T seg = 0 := by
      intro seg x y hxy
      exact countOccs_zero_of_sub T seg _ ⟨x, y, hxy⟩ hTskel
    have hnil0 : countOccs T [] = 0 := by
      simp [countOccs, hTne]
    have h1 : countOccs T "https".data = 0 :=
      hskel _ [] "://www.amazon.com/dp//ref=nosim?tag=".data (by decide)
    have h2 : countOccs T "www".data = 0 :=
      hskel _ "https://".data ".amazon.com/dp//ref=nosim?tag=".data (by decide)
    have h3 : countOccs T "amazon".data = 0 :=
      hskel _ "https://www.".data ".com/dp//ref=nosim?tag=".data (by decide)
    have h4 : countOccs T "com".data = 0 :=
      hskel _ "https://www.amazon.".data "/dp//ref=nosim?tag=".data (by decide)
    have h5 : countOccs T "dp".data = 0 :=
      hskel _ "https://www.amazon.com/".data "//ref=nosim?tag=".data (by decide)
    have h6 : countOccs T "ref".data = 0 :=
      hskel _ "https://www.amazon.com/dp//".data "=nosim?tag=".data (by decide)
    have h7 : countOccs T "nosim".data = 0 :=
      hskel _ "https://www.amazon.com/dp//ref=".data "?tag=".data (by decide)
    have h8 : countOccs T "tag".data = 0 :=
      hskel _ "https://www.amazon.com/dp//ref=nosim?".data "=".data (by decide)
    have hTT : ((splitOnP notAlnum T).map (countOccs T)).sum = 1 := by
      rw [splitOnP_no_delim notAlnum T hTNoDelim]
      simp [countOccs_self T hTne]
    simp only [List.map_append, List.sum_append, List.map_cons, List.sum_cons,
      List.map_nil, List.sum_nil, hTT]
    rw [h1, h2, h3, h4, h5, h6, h7, h8, hTinA, hnil0]
    omega

theorem c7_witness :
    countOccs "B08N5WRWNW".data
      (create_associate_url (some "B08N5WRWNW") (some "mytag20") none).data = 1 ∧
    countOccs (resolvedTag (some "mytag20") none).data
      (create_associate_url (some "B08N5WRWNW") (some "mytag20") none).data = 1 :=
  c7_identifier_and_tag_once "B08N5WRWNW" (some "mytag20") none
    (by decide) (by decide) (by decide) (by decide) (by decide) (by decide) (by decide)

/-! ## Claim C2 -/

theorem searchDp_cons (a : Char) (t : List Char) :
    searchDp (a :: t) = match matchDpAt (a :: t) with
      | some c => some c
      | none => searchDp t := rfl

theorem searchSeg_cons (a : Char) (t : List Char) :
    searchSeg (a :: t) = match matchSegAt (a :: t) with
      | some c => some c
      | none => searchSeg t := rfl

theorem matchDpAt_of_decomp (c s : List Char) (h10 : c.length = 10)
    (hal : c.all isUpperAlnum = true) (hb : reBoundary s = true) :
    matchDpAt ('/' :: 'd' :: 'p' :: '/' :: (c ++ s)) = some c := by
  unfold matchDpAt
  have h4 : List.take 4 ('/' :: 'd' :: 'p' :: '/' :: (c ++ s)) = ['/', 'd', 'p', '/'] := rfl
  rw [if_pos h4]
  have hdrop : ('/' :: 'd' :: 'p' :: '/' :: (c ++ s)).drop 4 = c ++ s := rfl
  rw [hdrop, List.take_left' h10, List.drop_left' h10]
  simp [h10, hal, hb]

theorem matchDpAt_decomp (l c : List Char) (h : matchDpAt l = some c) :
    l = '/' :: 'd' :: 'p' :: '/' :: (c ++ l.drop 14) ∧ c.length = 10 ∧
      c.all isUpperAlnum = true ∧ reBoundary (l.drop 14) = true := by
  unfold matchDpAt at h
  by_cases h4 : l.take 4 = ['/', 'd', 'p', '/']
  · rw [if_pos h4] at h
    by_cases hcond : ((l.drop 4).take 10).length == 10 &&
        ((l.drop 4).take 10).all isUpperAlnum && reBoundary ((l.drop 4).drop 10)
    · rw [if_pos hcond] at h
      injection h with hc
      subst hc
      have hdd : (l.drop 4).drop 10 = l.drop 14 := by
        rw [List.drop_drop]
      obtain ⟨hlen, hall, hbnd⟩ : (((l.drop 4).take 10).length == 10) = true ∧
          ((l.drop 4).take 10).all isUpperAlnum = true ∧
          reBoundary ((l.drop 4).drop 10) = true := by
        have h1 := (Bool.and_eq_true _ _).mp hcond
        have h2 := (Bool.and_eq_true _ _).mp h1.1
        exact ⟨h2.1, h2.2, h1.2⟩
      refine ⟨?_, by simpa using hlen, hall, by rwa [hdd] at hbnd⟩
      conv_lhs => rw [← List.take_append_drop 4 l, h4]
      show ['/', 'd', 'p', '/'] ++ l.drop 4 =
        ['/', 'd', 'p', '/'] ++ ((l.drop 4).take 10 ++ l.drop 14)
      rw [← hdd]
      rw [List.take_append_drop 10 (l.drop 4)]
    · rw [if_neg hcond] at h; exact absurd h (by simp)
  · rw [if_neg h4] at h; exact absurd h (by simp)

theorem searchDp_some_decomp (l c : List Char) (h : searchDp l = some c) :
    ∃ p s, l = p ++ '/' :: 'd' :: 'p' :: '/' :: (c ++ s) ∧ c.length = 10 ∧
      c.all isUpperAlnum = true ∧ reBoundary s = true := by
  induction l with
  | nil => simp [searchDp] at h
  | cons a t ih =>
    rw [searchDp_cons] at h
    cases hm : matchDpAt (a :: t) with
    | some c₀ =>
      rw [hm] at h
      have hc : c₀ = c := by injection h
      rw [hc] at hm
      obtain ⟨heq, h10, hal, hb⟩ := matchDpAt_decomp (a :: t) c hm
      exact ⟨[], (a :: t).drop 14, by simpa using heq, h10, hal, hb⟩
    | none =>
      rw [hm] at h
      obtain ⟨p, s, heq, h10, hal, hb⟩ := ih h
      exact ⟨a :: p, s, by simp [heq], h10, hal, hb⟩

theorem searchDp_leftmost :
    ∀ (p l c s : List Char), l = p ++ '/' :: 'd' :: 'p' :: '/' :: (c ++ s) →
      c.length = 10 → c.all isUpperAlnum = true → reBoundary s = true →
      (∀ i, i < p.length → matchDpAt (l.drop i) = none) →
      searchDp l = some c := by
  intro p
  induction p with
  | nil =>
    intro l c s heq h10 hal hb hleft
    subst heq
    simp only [List.nil_append]
    rw [searchDp_cons, matchDpAt_of_decomp c s h10 hal hb]
  | cons a p' ih =>
    intro l c s heq h10 hal hb hleft
    subst heq
    have h0 : matchDpAt ((a :: p' ++ '/' :: 'd' :: 'p' :: '/' :: (c ++ s)).drop 0) = none :=
      hleft 0 (by simp)
    rw [List.drop_zero] at h0
    simp only [List.cons_append] at h0 ⊢
    rw [searchDp_cons, h0]
    refine ih (p' ++ '/' :: 'd' :: 'p' :: '/' :: (c ++ s)) c s rfl h10 hal hb ?_
    intro i hi
    have := hleft (i + 1) (by simpa using Nat.succ_lt_succ hi)
    simpa using this

/-- C2 is refuted as stated: `https://dp/abcdefghij` contains the path
segment pattern `/dp/` followed by the ten alphanumeric characters
`abcdefghij` and the end of the string, yet `extract_asin` returns `None`
(the regex class is `[A-Z0-9]` and `urlparse` reads `dp` as the host). -/
theorem c2_counterexample :
    ("https://dp/abcdefghij" : String).data =
      "https:/".data ++ '/' :: 'd' :: 'p' :: '/' :: ("abcdefghij".data ++ []) ∧
    "abcdefghij".data.length = 10 ∧
    "abcdefghij".data.all Char.isAlphanum = true ∧
    extract_asin "https://dp/abcdefghij" = none := by
  refine ⟨by decide, by decide, by decide, by decide⟩

/-- C2 (amended): for every URL containing the substring `/dp/` followed by
exactly 10 characters of the class `[A-Z0-9]` (the class the code's regex
uses) bounded by `/`, `?`, or end-of-string, `extract_asin` returns exactly
the code of the leftmost such match. -/
theorem c2_dp_pattern_extracts (url : String) (p c s : List Char)
    (heq : url.data = p ++ '/' :: 'd' :: 'p' :: '/' :: (c ++ s))
    (h10 : c.length = 10) (hal : c.all isUpperAlnum = true)
    (hs : s = [] ∨ s.head? = some '/' ∨ s.head? = some '?')
    (hleft : ∀ i, i < p.length → matchDpAt (url.data.drop i) = none) :
    extract_asin url = some (String.mk c) := by
  have hb : reBoundary s = true := by
    rcases hs with rfl | hs | hs
    · rfl
    · rcases s with - | ⟨x, - | ⟨y, t⟩⟩ <;> simp_all [reBoundary]
    · rcases s with - | ⟨x, - | ⟨y, t⟩⟩ <;> simp_all [reBoundary]
  have hsearch := searchDp_leftmost p url.data c s heq h10 hal hb hleft
  unfold extract_asin
  rw [hsearch]

theorem c2_witness :
    extract_asin "https://www.amazon.com/dp/B08N5WRWNW?th=1" =
      some (String.mk "B08N5WRWNW".data) :=
  c2_dp_pattern_extracts "https://www.amazon.com/dp/B08N5WRWNW?th=1"
    "https://www.amazon.com".data "B08N5WRWNW".data "?th=1".data
    (by decide) (by decide) (by decide) (by decide) (by decide)

/-! ## Claim C3: infrastructure -/

/-- The boundary characters of the spec's notion of path segment:
`/`, `?`, `#`. -/
def isDelim3 (c : Char) : Bool := c == '/' || c == '?' || c == '#'

/-- As `isDelim3`, with the parameter separator `;` as well. -/
def isDelim4 (c : Char) : Bool := c == '/' || c == '?' || c == '#' || c == ';'

theorem isUpperAlnum_char_facts (x : Char) (h : isUpperAlnum x = true) :
    isTabCrLf x = false ∧ isDelim4 x = false ∧ isDelim3 x = false := by
  have hne : ∀ y : Char, isUpperAlnum y = false → x ≠ y := by
    intro y hy hxy
    rw [hxy, hy] at h
    exact absurd h (by simp)
  refine ⟨?_, ?_, ?_⟩
  · simp only [isTabCrLf, Bool.or_eq_false_iff, beq_eq_false_iff_ne]
    exact ⟨⟨hne '\t' (by decide), hne '\r' (by decide)⟩, hne '\n' (by decide)⟩
  · simp only [isDelim4, Bool.or_eq_false_iff, beq_eq_false_iff_ne]
    exact ⟨⟨⟨hne '/' (by decide), hne '?' (by decide)⟩, hne '#' (by decide)⟩,
      hne ';' (by decide)⟩
  · simp only [isDelim3, Bool.or_eq_false_iff, beq_eq_false_iff_ne]
    exact ⟨⟨hne '/' (by decide), hne '?' (by decide)⟩, hne '#' (by decide)⟩

theorem matchSegAt_decomp (l c : List Char) (h : matchSegAt l = some c) :
    ∃ s : List Char, l = '/' :: (c ++ s) ∧ c.length = 10 ∧
      c.all isUpperAlnum = true ∧ reBoundary s = true := by
  cases l with
  | nil => exact absurd h (by simp [matchSegAt])
  | cons a r =>
    simp only [matchSegAt] at h
    by_cases ha : a = '/'
    · rw [if_pos ha] at h
      subst ha
      by_cases hcond : (r.take 10).length == 10 && (r.take 10).all isUpperAlnum &&
          reBoundary (r.drop 10)
      · rw [if_pos hcond] at h
        have hc : r.take 10 = c := by injection h
        obtain ⟨hlen, hall, hbnd⟩ : ((r.take 10).length == 10) = true ∧
            (r.take 10).all isUpperAlnum = true ∧ reBoundary (r.drop 10) = true := by
          have h1 := (Bool.and_eq_true _ _).mp hcond
          have h2 := (Bool.and_eq_true _ _).mp h1.1
          exact ⟨h2.1, h2.2, h1.2⟩
        refine ⟨r.drop 10, ?_, ?_, hc ▸ hall, hbnd⟩
        · rw [← hc, List.take_append_drop 10 r]
        · rw [← hc]; simpa using hlen
      · rw [if_neg hcond] at h; exact absurd h (by simp)
    · rw [if_neg ha] at h
      exact absurd h (by simp)

theorem searchSeg_some_decomp (l c : List Char) (h : searchSeg l = some c) :
    ∃ p s, l = p ++ '/' :: (c ++ s) ∧ c.length = 10 ∧
      c.all isUpperAlnum = true ∧ reBoundary s = true := by
  induction l with
  | nil => simp [searchSeg] at h
  | cons a t ih =>
    rw [searchSeg_cons] at h
    cases hm : matchSegAt (a :: t) with
    | some c₀ =>
      rw [hm] at h
      have hc : c₀ = c := by injection h
      rw [hc] at hm
      obtain ⟨s, heq, h10, hal, hb⟩ := matchSegAt_decomp (a :: t) c hm
      exact ⟨[], s, by simpa using heq, h10, hal, hb⟩
    | none =>
      rw [hm] at h
      obtain ⟨p, s, heq, h10, hal, hb⟩ := ih h
      exact ⟨a :: p, s, by simp [heq], h10, hal, hb⟩

theorem dpScan_some :
    ∀ (ps : List (List Char)) (c : List Char), dpScan ps = some c →
      c ∈ ps.tail ∧ c.length = 10 := by
  intro ps
  induction ps with
  | nil => intro c h; simp [dpScan] at h
  | cons p₁ rest ih =>
    intro c h
    cases rest with
    | nil => simp [dpScan] at h
    | cons p₂ rest' =>
      rw [dpScan] at h
      by_cases hcond : p₁ = ['d', 'p'] ∧ p₂.length = 10
      · rw [if_pos hcond] at h
        have : p₂ = c := by injection h
        subst this
        exact ⟨by simp, hcond.2⟩
      · rw [if_neg hcond] at h
        obtain ⟨hmem, hlen⟩ := ih c h
        exact ⟨List.mem_cons_of_mem _ (by simpa using hmem), hlen⟩

theorem dropWhile_append_notHead (q : Char → Bool) (a : Char) (r : List Char)
    (ha : q a = false) :
    ∀ p : List Char, ∃ p', (p ++ a :: r).dropWhile q = p' ++ a :: r := by
  intro p
  induction p with
  | nil =>
    refine ⟨[], ?_⟩
    simp only [List.nil_append]
    exact List.dropWhile_cons_of_neg (by simp [ha])
  | cons b t ih =>
    by_cases hb : q b
    · obtain ⟨p', hp'⟩ := ih
      refine ⟨p', ?_⟩
      simp only [List.cons_append]
      rw [List.dropWhile_cons_of_pos hb]
      exact hp'
    · exact ⟨b :: t, by simp only [List.cons_append]; exact List.dropWhile_cons_of_neg hb⟩

theorem takeWhile_all_append_stop (q : Char → Bool) (d : Char) (hd : q d = false) :
    ∀ (u v : List Char), (∀ a ∈ u, q a = true) →
      (u ++ d :: v).takeWhile q = u := by
  intro u
  induction u with
  | nil =>
    intro v _
    simp only [List.nil_append]
    exact List.takeWhile_cons_of_neg (by simp [hd])
  | cons b t ih =>
    intro v hu
    have hb : q b = true := hu b (by simp)
    simp only [List.cons_append]
    rw [List.takeWhile_cons_of_pos hb, ih v (fun a ha => hu a (by simp [ha]))]

theorem takeWhile_all (q : Char → Bool) :
    ∀ l : List Char, (∀ a ∈ l, q a = true) → l.takeWhile q = l := by
  intro l
  induction l with
  | nil => intro _; rfl
  | cons b t ih =>
    intro h
    rw [List.takeWhile_cons_of_pos (h b (by simp)), ih (fun a ha => h a (by simp [ha]))]

/-- Pushing a `.../X/code...` decomposition of the raw URL through the
sanitisation of `urlsplit`: the run `c` and its bounding characters
survive. -/
theorem cleanUrl_run_decomp (p c s : List Char)
    (hcKeep : ∀ x ∈ c, isTabCrLf x = false) :
    ∃ p', cleanUrl (p ++ '/' :: (c ++ s)) =
      p' ++ '/' :: (c ++ s.filter (fun x => !(isTabCrLf x))) := by
  unfold cleanUrl
  obtain ⟨p₁, hp₁⟩ := dropWhile_append_notHead isC0OrSpace '/' (c ++ s) (by decide) p
  rw [hp₁]
  refine ⟨p₁.filter (fun x => !(isTabCrLf x)), ?_⟩
  rw [List.filter_append]
  congr 1
  rw [List.filter_cons]
  simp only [show (!(isTabCrLf '/')) = true by decide, if_pos]
  congr 1
  rw [List.filter_append]
  congr 1
  exact List.filter_eq_self.mpr (fun a ha => by simp [hcKeep a ha])

theorem filter_reBoundary (s : List Char) (hb : reBoundary s = true) :
    s.filter (fun x => !(isTabCrLf x)) = [] ∨
    (∃ s', s.filter (fun x => !(isTabCrLf x)) = '/' :: s') ∨
    (∃ s', s.filter (fun x => !(isTabCrLf x)) = '?' :: s') := by
  rcases s with - | ⟨x, - | ⟨y, t⟩⟩
  · exact Or.inl rfl
  · -- single-character boundary: `/`, `?` or a trailing newline
    have hx : (x == '/' || x == '?' || x == '\n') = true := hb
    rcases Bool.or_eq_true _ _ |>.mp hx with hx' | hx'
    · rcases Bool.or_eq_true _ _ |>.mp hx' with hx'' | hx''
      · have : x = '/' := by simpa using hx''
        subst this
        exact Or.inr (Or.inl ⟨[], rfl⟩)
      · have : x = '?' := by simpa using hx''
        subst this
        exact Or.inr (Or.inr ⟨[], rfl⟩)
    · have : x = '\n' := by simpa using hx'
      subst this
      exact Or.inl rfl
  · have hx : (x == '/' || x == '?') = true := hb
    rcases Bool.or_eq_true _ _ |>.mp hx with hx' | hx'
    · have : x = '/' := by simpa using hx'
      subst this
      exact Or.inr (Or.inl ⟨(y :: t).filter (fun x => !(isTabCrLf x)), by
        rw [List.filter_cons]; simp [show isTabCrLf '/' = false from rfl]⟩)
    · have : x = '?' := by simpa using hx'
      subst this
      exact Or.inr (Or.inr ⟨(y :: t).filter (fun x => !(isTabCrLf x)), by
        rw [List.filter_cons]; simp [show isTabCrLf '?' = false from rfl]⟩)

theorem schemeSplit_suffix (u : List Char) : ∃ w, u = w ++ (schemeSplit u).2 := by
  simp only [schemeSplit]
  split
  · exact ⟨u.take ((u.takeWhile (fun c => c != ':')).length + 1),
      (List.take_append_drop _ u).symm⟩
  · exact ⟨[], by simp⟩

theorem stripNetloc_suffix (u : List Char) : ∃ w, u = w ++ stripNetloc u := by
  unfold stripNetloc
  split
  · rename_i htake
    refine ⟨'/' :: '/' :: (u.drop 2).takeWhile (fun c => !(c == '/' || c == '?' || c == '#')), ?_⟩
    conv_lhs => rw [← List.take_append_drop 2 u, htake]
    simp [List.takeWhile_append_dropWhile]
  · exact ⟨[], by simp⟩

theorem dropWhile_head_eq (x : Char) (l : List Char) {d : Char} {r : List Char}
    (h : l.dropWhile (fun c => c != x) = d :: r) : d = x := by
  have := dropWhile_head_not (fun c => c != x) l h
  simpa using this

theorem dropWhile_ne_nil_of_mem (q : Char → Bool) (a : Char) (hqa : q a = false) :
    ∀ l : List Char, a ∈ l → l.dropWhile q ≠ [] := by
  intro l
  induction l with
  | nil => intro ha; simp at ha
  | cons b t ih =>
    intro ha
    by_cases hb : q b
    · rw [List.dropWhile_cons_of_pos hb]
      rcases List.mem_cons.mp ha with rfl | ha'
      · rw [hqa] at hb; exact absurd hb (by simp)
      · exact ih ha'
    · rw [List.dropWhile_cons_of_neg hb]
      simp

/-- `urlsplit`'s path sits contiguously inside the sanitised URL: what
follows it starts with `#` or `?` (or is empty), and the path itself
contains neither. -/
theorem cleanUrl_path_decomp (raw : List Char) :
    ∃ W S1, cleanUrl raw = W ++ (preParamsPath raw ++ S1) ∧
      (S1 = [] ∨ ∃ d t, S1 = d :: t ∧ (d = '#' ∨ d = '?')) ∧
      (∀ x ∈ preParamsPath raw, (x == '#') = false ∧ (x == '?') = false) := by
  obtain ⟨w1, hw1⟩ := schemeSplit_suffix (cleanUrl raw)
  obtain ⟨w2, hw2⟩ := stripNetloc_suffix (schemeSplit (cleanUrl raw)).2
  have h23 : stripNetloc (schemeSplit (cleanUrl raw)).2 =
      (stripNetloc (schemeSplit (cleanUrl raw)).2).takeWhile (fun c => c != '#') ++
      (stripNetloc (schemeSplit (cleanUrl raw)).2).dropWhile (fun c => c != '#') :=
    (List.takeWhile_append_dropWhile _ _).symm
  have h34 : (stripNetloc (schemeSplit (cleanUrl raw)).2).takeWhile (fun c => c != '#') =
      preParamsPath raw ++
      ((stripNetloc (schemeSplit (cleanUrl raw)).2).takeWhile
        (fun c => c != '#')).dropWhile (fun c => c != '?') :=
    (List.takeWhile_append_dropWhile _ _).symm
  refine ⟨w1 ++ w2,
    ((stripNetloc (schemeSplit (cleanUrl raw)).2).takeWhile
      (fun c => c != '#')).dropWhile (fun c => c != '?') ++
    (stripNetloc (schemeSplit (cleanUrl raw)).2).dropWhile (fun c => c != '#'),
    ?_, ?_, ?_⟩
  · conv_lhs => rw [hw1, hw2]
    rw [h23]
    conv_lhs => rw [h34]
    simp [List.append_assoc]
  · cases hr2 : ((stripNetloc (schemeSplit (cleanUrl raw)).2).takeWhile
        (fun c => c != '#')).dropWhile (fun c => c != '?') with
    | cons d t =>
      refine Or.inr ⟨d, t ++ (stripNetloc (schemeSplit (cleanUrl raw)).2).dropWhile
        (fun c => c != '#'), ?_, Or.inr (dropWhile_head_eq '?' _ hr2)⟩
      rfl
    | nil =>
      cases hr1 : (stripNetloc (schemeSplit (cleanUrl raw)).2).dropWhile
          (fun c => c != '#') with
      | cons d t =>
        refine Or.inr ⟨d, t, by simp, Or.inl (dropWhile_head_eq '#' _ hr1)⟩
      | nil => exact Or.inl (by simp)
  · intro x hx
    constructor
    · have hx3 : x ∈ (stripNetloc (schemeSplit (cleanUrl raw)).2).takeWhile
          (fun c => c != '#') := (List.takeWhile_sublist _).mem hx
      have := List.mem_takeWhile_imp hx3
      simpa using this
    · have := List.mem_takeWhile_imp hx
      simpa using this

theorem cutParams_spec (p : List Char) :
    cutParams p = p ∨
    (∃ r', p = cutParams p ++ ';' :: r' ∧
      ∀ x ∈ (cutParams p).reverse.takeWhile (fun a => a != '/'), (x == ';') = false) := by
  unfold cutParams
  by_cases hslash : p.contains '/' = true
  · rw [if_pos hslash]
    by_cases hsemi : ((p.reverse.takeWhile (fun c => c != '/')).reverse).contains ';' = true
    · rw [if_pos hsemi]
      right
      have hp : p = (p.reverse.dropWhile (fun c => c != '/')).reverse ++
          (p.reverse.takeWhile (fun c => c != '/')).reverse := by
        conv_lhs => rw [← List.reverse_reverse p]
        conv_lhs =>
          rw [← List.takeWhile_append_dropWhile (fun c => c != '/') p.reverse]
        rw [List.reverse_append]
      have hsemiMem : ';' ∈ (p.reverse.takeWhile (fun c => c != '/')).reverse := by
        simpa using hsemi
      have hdwne := dropWhile_ne_nil_of_mem (fun c => c != ';') ';' (by decide)
        _ hsemiMem
      cases hdrop : ((p.reverse.takeWhile (fun c => c != '/')).reverse).dropWhile
          (fun c => c != ';') with
      | nil => exact absurd hdrop hdwne
      | cons d rest =>
        have hd : d = ';' := dropWhile_head_eq ';' _ hdrop
        subst hd
        refine ⟨rest, ?_, ?_⟩
        · conv_lhs => rw [hp]
          conv_lhs =>
            rw [← List.takeWhile_append_dropWhile (fun c => c != ';')
              (p.reverse.takeWhile (fun c => c != '/')).reverse]
          rw [hdrop, List.append_assoc]
        · -- the cut result ends with the `; `-free run after the last `/`
          intro x hx
          -- first find the trailing run of the result
          have hdropRevNe : p.reverse.dropWhile (fun c => c != '/') ≠ [] := by
            apply dropWhile_ne_nil_of_mem (fun c => c != '/') '/' (by decide)
            simpa using List.mem_reverse.mpr (by simpa using hslash)
          cases hdropRev : p.reverse.dropWhile (fun c => c != '/') with
          | nil => exact absurd hdropRev hdropRevNe
          | cons d2 rest2 =>
            have hd2 : d2 = '/' := dropWhile_head_eq '/' _ hdropRev
            subst hd2
            have hrev : ((p.reverse.dropWhile (fun c => c != '/')).reverse ++
                ((p.reverse.takeWhile (fun c => c != '/')).reverse).takeWhile
                  (fun c => c != ';')).reverse =
                (((p.reverse.takeWhile (fun c => c != '/')).reverse).takeWhile
                  (fun c => c != ';')).reverse ++ ('/' :: rest2) := by
              rw [List.reverse_append, List.reverse_reverse, hdropRev]
            rw [hrev] at hx
            have hallrun : ∀ a ∈ (((p.reverse.takeWhile (fun c => c != '/')).reverse).takeWhile
                (fun c => c != ';')).reverse, (a != '/') = true := by
              intro a ha
              have ha1 : a ∈ ((p.reverse.takeWhile (fun c => c != '/')).reverse).takeWhile
                  (fun c => c != ';') := List.mem_reverse.mp ha
              have ha2 : a ∈ (p.reverse.takeWhile (fun c => c != '/')).reverse :=
                (List.takeWhile_sublist _).mem ha1
              have ha3 : a ∈ p.reverse.takeWhile (fun c => c != '/') :=
                List.mem_reverse.mp ha2
              have ha4 := List.mem_takeWhile_imp ha3
              simpa using ha4
            rw [takeWhile_all_append_stop _ '/' (by decide) _ rest2 hallrun] at hx
            have hx1 : x ∈ ((p.reverse.takeWhile (fun c => c != '/')).reverse).takeWhile
                (fun c => c != ';') := List.mem_reverse.mp hx
            have := List.mem_takeWhile_imp hx1
            simpa using this
    · rw [if_neg hsemi]
      exact Or.inl rfl
  · rw [if_neg hslash]
    by_cases hsemi2 : ';' ∈ p
    · right
      have hdwne := dropWhile_ne_nil_of_mem (fun c => c != ';') ';' (by decide) p hsemi2
      cases hdrop : p.dropWhile (fun c => c != ';') with
      | nil => exact absurd hdrop hdwne
      | cons d rest =>
        have hd : d = ';' := dropWhile_head_eq ';' _ hdrop
        subst hd
        refine ⟨rest, ?_, ?_⟩
        · conv_lhs => rw [← List.takeWhile_append_dropWhile (fun c => c != ';') p]
          rw [hdrop]
        · intro x hx
          have hx1 : x ∈ (p.takeWhile (fun c => c != ';')).reverse :=
            (List.takeWhile_sublist _).mem hx
          have hx2 : x ∈ p.takeWhile (fun c => c != ';') := List.mem_reverse.mp hx1
          have := List.mem_takeWhile_imp hx2
          simpa using this
    · left
      exact takeWhile_all _ p (fun a ha => by
        have : ¬ a = ';' := fun heq => hsemi2 (heq ▸ ha)
        simpa using this)

theorem trailing_run_eq (l x y : List Char) (h : l = x ++ '/' :: y)
    (hy : ∀ a ∈ y, (a != '/') = true) :
    l.reverse.takeWhile (fun a => a != '/') = y.reverse := by
  subst h
  rw [List.reverse_append, List.reverse_cons, List.append_assoc,
    List.singleton_append]
  exact takeWhile_all_append_stop _ '/' (by decide) y.reverse x.reverse
    (fun a ha => hy a (List.mem_reverse.mp ha))

theorem u4_decomp (raw : List Char) :
    ∃ r3, preParamsPath raw = urlparsePath raw ++ r3 ∧
      (r3 = [] ∨ ∃ r', r3 = ';' :: r' ∧
        ∀ x ∈ (urlparsePath raw).reverse.takeWhile (fun a => a != '/'),
          (x == ';') = false) := by
  simp only [urlparsePath]
  split
  · rcases cutParams_spec (preParamsPath raw) with heq | ⟨r', hp, hcond⟩
    · exact ⟨[], by rw [heq, List.append_nil], Or.inl rfl⟩
    · exact ⟨';' :: r', hp, Or.inr ⟨r', rfl, hcond⟩⟩
  · exact ⟨[], by rw [List.append_nil], Or.inl rfl⟩

/-- C3 is refuted as stated: in `/dp/abcdefghij#x` no path segment of
exactly 10 characters occurs (cutting at the spec's own boundary characters
`/`, `?` and the string ends, the segments are ``, `dp`, `abcdefghij#x`),
yet `extract_asin` returns `abcdefghij`, because `urlparse` first strips
the fragment `#x`. -/
theorem c3_counterexample :
    (∀ seg ∈ splitOnP (fun c => c == '/' || c == '?') "/dp/abcdefghij#x".data,
      seg.length ≠ 10) ∧
    extract_asin "/dp/abcdefghij#x" = some "abcdefghij" := by
  constructor
  · decide
  · decide

/-- C3 (amended): for every URL such that (a) the sanitised URL (leading
control/space stripped and tab/CR/LF removed, as `urlparse` does) has no
10-character segment either when cut at `/`, `?`, `#` or when cut at
`/`, `?`, `#`, `;`, and (b) the URL parse cannot raise — no `//netloc`,
or a bracket-free pure-ASCII netloc (`urlsplitSafe`) — `extract_asin`
returns `None`.  The claim's `never raises` part is dropped: on a URL such
as `http://[abc` the library parse raises `ValueError (Invalid IPv6 URL)`,
which `extract_asin` propagates, so absence is not the only failure
signal. -/
theorem c3_no_ten_segment_extracts_none (url : String)
    (hsafe : urlsplitSafe url.data = true)
    (h3 : ∀ seg ∈ splitOnP isDelim3 (cleanUrl url.data), seg.length ≠ 10)
    (h4 : ∀ seg ∈ splitOnP isDelim4 (cleanUrl url.data), seg.length ≠ 10) :
    extract_asin url = none := by
  unfold extract_asin
  cases hdp : searchDp url.data with
  | some c =>
    exfalso
    obtain ⟨p, s, heq, h10, hal, hb⟩ := searchDp_some_decomp url.data c hdp
    have halx : ∀ x ∈ c, isUpperAlnum x = true := by
      intro x hx
      have := List.all_eq_true.mp hal x hx
      simpa using this
    have heq' : url.data = (p ++ ['/', 'd', 'p']) ++ '/' :: (c ++ s) := by
      rw [heq]; simp
    obtain ⟨p', hp'⟩ := cleanUrl_run_decomp (p ++ ['/', 'd', 'p']) c s
      (fun x hx => (isUpperAlnum_char_facts x (halx x hx)).1)
    rw [← heq'] at hp'
    have hmem : c ∈ splitOnP isDelim4 (cleanUrl url.data) := by
      rw [hp']
      apply mem_splitOnP_of_run isDelim4 p' c _ (by decide)
      · exact fun x hx => (isUpperAlnum_char_facts x (halx x hx)).2.1
      · rcases filter_reBoundary s hb with hf | ⟨s', hf⟩ | ⟨s', hf⟩
        · exact Or.inl hf
        · exact Or.inr ⟨'/', s', hf, by decide⟩
        · exact Or.inr ⟨'?', s', hf, by decide⟩
    exact h4 c hmem h10
  | none =>
    cases hscan : dpScan (splitOnP (fun c => c == '/') (urlparsePath url.data)) with
    | some c =>
      exfalso
      obtain ⟨hmemtail, h10⟩ := dpScan_some _ c hscan
      obtain ⟨pr, d, rr, hpath, hd, hcq, hrr⟩ :=
        splitOnP_tail_decomp (fun c => c == '/') (urlparsePath url.data) c hmemtail
      have hd' : d = '/' := by simpa using hd
      subst hd'
      have hcInPath : ∀ x ∈ c, x ∈ urlparsePath url.data := by
        intro x hx
        rw [hpath]
        simp [hx]
      obtain ⟨r3, hu4, hr3⟩ := u4_decomp url.data
      obtain ⟨W, S1, hclean, hS1, hPathChars⟩ := cleanUrl_path_decomp url.data
      have hcHashQ : ∀ x ∈ c, (x == '#') = false ∧ (x == '?') = false := by
        intro x hx
        apply hPathChars
        rw [hu4]
        exact List.mem_append_left _ (hcInPath x hx)
      have hassemble : cleanUrl url.data =
          (W ++ pr) ++ '/' :: (c ++ (rr ++ (r3 ++ S1))) := by
        rw [hclean, hu4, hpath]
        simp [List.append_assoc]
      have hS1ok : S1 = [] ∨ ∃ d2 t2, S1 = d2 :: t2 ∧ isDelim3 d2 = true ∧
          isDelim4 d2 = true := by
        rcases hS1 with hS1nil | ⟨d2, t2, hS1c, hd2⟩
        · exact Or.inl hS1nil
        · exact Or.inr ⟨d2, t2, hS1c, by rcases hd2 with rfl | rfl <;> exact ⟨rfl, rfl⟩⟩
      rcases hrr with hrrnil | ⟨d', r', hrrcons, hd'⟩
      · -- `c` is the trailing `/`-component of the path
        rcases hr3 with hr3nil | ⟨r', hr3cons, hnosemi⟩
        · -- nothing cut by `_splitparams`: the boundary is `#`, `?` or the end
          have hmem : c ∈ splitOnP isDelim3 (cleanUrl url.data) := by
            rw [hassemble, hrrnil, hr3nil]
            apply mem_splitOnP_of_run isDelim3 _ c _ (by decide)
            · intro x hx
              simp [isDelim3, hcq x hx, (hcHashQ x hx).1, (hcHashQ x hx).2]
            · rcases hS1ok with hS1nil | ⟨d2, t2, hS1c, hd2, -⟩
              · left; simp [hS1nil]
              · right; exact ⟨d2, t2, by simp [hS1c], hd2⟩
          exact h3 c hmem h10
        · -- parameters were cut: the boundary is `;`, and `c` is `;`-free
          have htr : (urlparsePath url.data).reverse.takeWhile (fun a => a != '/') =
              c.reverse := by
            apply trailing_run_eq _ pr c
            · rw [hpath, hrrnil]
              simp
            · intro a ha
              simpa using beq_eq_false_iff_ne.mp (hcq a ha)
          have hcSemi : ∀ x ∈ c, (x == ';') = false := by
            intro x hx
            apply hnosemi
            rw [htr]
            exact List.mem_reverse.mpr hx
          have hmem : c ∈ splitOnP isDelim4 (cleanUrl url.data) := by
            rw [hassemble, hrrnil]
            apply mem_splitOnP_of_run isDelim4 _ c _ (by decide)
            · intro x hx
              simp [isDelim4, hcq x hx, (hcHashQ x hx).1, (hcHashQ x hx).2, hcSemi x hx]
            · right
              refine ⟨';', r' ++ S1, ?_, by decide⟩
              rw [hr3cons]
              simp
          exact h4 c hmem h10
      · -- `c` is followed by a further `/` inside the path
        have hd'' : d' = '/' := by simpa using hd'
        subst hd''
        have hmem : c ∈ splitOnP isDelim3 (cleanUrl url.data) := by
          rw [hassemble]
          apply mem_splitOnP_of_run isDelim3 _ c _ (by decide)
          · intro x hx
            simp [isDelim3, hcq x hx, (hcHashQ x hx).1, (hcHashQ x hx).2]
          · right
            refine ⟨'/', r' ++ (r3 ++ S1), ?_, by decide⟩
            rw [hrrcons]
            simp
        exact h3 c hmem h10
    | none =>
      cases hseg : searchSeg url.data with
      | some c =>
        exfalso
        obtain ⟨p, s, heq, h10, hal, hb⟩ := searchSeg_some_decomp url.data c hseg
        have halx : ∀ x ∈ c, isUpperAlnum x = true := by
          intro x hx
          have := List.all_eq_true.mp hal x hx
          simpa using this
        obtain ⟨p', hp'⟩ := cleanUrl_run_decomp p c s
          (fun x hx => (isUpperAlnum_char_facts x (halx x hx)).1)
        rw [← heq] at hp'
        have hmem : c ∈ splitOnP isDelim4 (cleanUrl url.data) := by
          rw [hp']
          apply mem_splitOnP_of_run isDelim4 p' c _ (by decide)
          · exact fun x hx => (isUpperAlnum_char_facts x (halx x hx)).2.1
          · rcases filter_reBoundary s hb with hf | ⟨s', hf⟩ | ⟨s', hf⟩
            · exact Or.inl hf
            · exact Or.inr ⟨'/', s', hf, by decide⟩
            · exact Or.inr ⟨'?', s', hf, by decide⟩
        exact h4 c hmem h10
      | none => rfl

theorem c3_witness : extract_asin "https://www.amazon.com/gp/product" = none :=
  c3_no_ten_segment_extracts_none "https://www.amazon.com/gp/product"
    (by decide) (by decide) (by decide)

end PriceTracker
